import Mathlib

/-!
# Verification of the `fit` bucket-packing tool

A shallow embedding of `src/main.rs` of the `rust-fit` repository: a
first-fit-decreasing bin packer over files with `u64` sizes, a
human-readable size parser (`HumanNumber::from_str`), a dry-run report
formatter, and a hard-link materializer.

Modelling conventions:
* Rust `u64` values are modelled as `Nat`.  Overflow is modelled
  explicitly (with `% 2 ^ 64`) at the one place where a claim is about
  overflow, the percentage computation of `Bucket::fmt`; elsewhere the
  arithmetic of the source cannot be distinguished from `Nat` arithmetic
  on the inputs the claims quantify over.
* Rust `PathBuf` is modelled as an absoluteness flag plus a component
  list, with `push` replacing the whole path when the pushed path is
  absolute, as `PathBuf::push` does.
* Strings are modelled as their character lists (`String.data`); the
  source indexes bytes, which agrees with characters on ASCII data.
* Rust panics (`split_at` out of bounds, division by zero) are modelled
  as explicit `panic`/`none` results.
-/

namespace Fit

/-- Model of Rust `PathBuf`: an absolute flag and a list of components. -/
structure RPath where
  absolute : Bool
  components : List String
deriving DecidableEq, Repr

/-- Rust `PathBuf::push`: pushing an absolute path replaces the receiver wholesale;
pushing a relative path appends its components. -/
def RPath.push (p q : RPath) : RPath :=
  if q.absolute then q else ⟨p.absolute, p.components ++ q.components⟩

/-- Rust `FileInfo { path, size }` from `main.rs`. -/
structure FileInfo where
  path : RPath
  size : Nat
deriving DecidableEq, Repr

/-- Rust `Bucket { path, capacity, size, contents }` from `main.rs`. -/
structure Bucket where
  path : RPath
  capacity : Nat
  size : Nat
  contents : List FileInfo
deriving DecidableEq, Repr

/-- Rust `Bucket::add`: if `self.size + file.size <= self.capacity`, push the file,
update the running size and return `true`; otherwise return `false` leaving
the bucket unchanged.  Returns the bucket after the call and the result. -/
def Bucket.add (b : Bucket) (f : FileInfo) : Bucket × Bool :=
  if b.size + f.size ≤ b.capacity then
    (⟨b.path, b.capacity, b.size + f.size, b.contents ++ [f]⟩, true)
  else
    (b, false)

/-- Rust `format!("{count:03}")`: decimal rendering zero-padded to width 3. -/
def pad3 (n : Nat) : String :=
  if n < 10 then "00" ++ toString n
  else if n < 100 then "0" ++ toString n
  else toString n

/-- The path produced by `numbered_dir_namer`'s closure for bucket number `n`
(1-based): `format!("{prefix}/{count:03}")`, i.e. the destination root with the
zero-padded ordinal appended as one more component. -/
def bucketPath (dest : RPath) (n : Nat) : RPath :=
  ⟨dest.absolute, dest.components ++ [pad3 n]⟩

/-- Packing state of `main`'s loop: the bucket vector and the counter hidden
inside `numbered_dir_namer`. -/
structure PackState where
  buckets : List Bucket
  count : Nat
deriving DecidableEq, Repr

/-- The inner `for bucket in &mut buckets` loop: call `add` on each bucket in
creation order, stopping at the first that returns `true`; `none` when every
bucket rejects the file. -/
def tryAddFirst : List Bucket → FileInfo → Option (List Bucket)
  | [], _ => none
  | b :: bs, f =>
    let r := b.add f
    if r.2 then some (r.1 :: bs)
    else (tryAddFirst bs f).map (fun bs2 => r.1 :: bs2)

/-- One iteration of `main`'s packing loop for a single file: first-fit over
the existing buckets, else push a fresh bucket named by the namer, holding the
file, with `size` initialised to the file's size. -/
def packStep (cap : Nat) (dest : RPath) (st : PackState) (f : FileInfo) : PackState :=
  match tryAddFirst st.buckets f with
  | some bs => ⟨bs, st.count⟩
  | none =>
      ⟨st.buckets ++ [⟨bucketPath dest (st.count + 1), cap, f.size, [f]⟩],
       st.count + 1⟩

/-- Loop of `main` over an (already sorted) file list. -/
def packAll (cap : Nat) (dest : RPath) (files : List FileInfo) : List Bucket :=
  (files.foldl (packStep cap dest) ⟨[], 0⟩).buckets

/-- Rust `files.sort_by(|a, b| b.size.cmp(&a.size))`: a stable sort, descending by
size.  Rust's `sort_by` is stable; `List.mergeSort` is the stable sort of the
Lean library. -/
def sortDesc (files : List FileInfo) : List FileInfo :=
  files.mergeSort (fun a b => decide (b.size ≤ a.size))

/-- The two fatal packing errors of `main`: no files found, and a file that
can never fit. -/
inductive PackError where
  | emptyInput
  | unpackable (f : FileInfo)
deriving DecidableEq, Repr

/-- Lines 230–264 of `main.rs`: reject an empty file list, sort descending by
size, reject when the largest file exceeds the capacity, then run the
first-fit loop. -/
def pack (cap : Nat) (dest : RPath) (files : List FileInfo) :
    Except PackError (List Bucket) :=
  if files.isEmpty then .error .emptyInput
  else
    match sortDesc files with
    | [] => .error .emptyInput
    | f :: fs =>
        if cap < f.size then .error (.unpackable f)
        else .ok (packAll cap dest (f :: fs))

/-! ## The `HumanNumber` size parser (`FromStr for HumanNumber`) -/

/-- ASCII whitespace as trimmed by `str::trim` (the claims involve only
ASCII data, where Rust's Unicode `White_Space` reduces to these). -/
def isWs (c : Char) : Bool :=
  c = ' ' || c = '\t' || c = '\n' || c = '\r' || c = '\x0b' || c = '\x0c'

/-- Rust `str::trim`: drop whitespace from both ends. -/
def trimChars (l : List Char) : List Char :=
  ((l.dropWhile isWs).reverse.dropWhile isWs).reverse

/-- Value of a digit string, most significant first. -/
def digitsVal (l : List Char) : Nat :=
  l.foldl (fun acc c => acc * 10 + (c.toNat - '0'.toNat)) 0

/-- Unsigned decimal literal `digits[.digits]` as an exact scaled integer:
`some (n, k)` denotes the value `n / 10 ^ k`.  Models the decimal-literal
fragment of Rust's `f64::from_str` (exponent and infinity forms are not
exercised by any claim); `f64` rounding is abstracted to exact decimal
arithmetic, which agrees with `f64` on every value appearing in the
claims. -/
def parseUnsignedDecimal (s : List Char) : Option (Nat × Nat) :=
  let intPart := s.takeWhile (fun c => c ≠ '.')
  match s.dropWhile (fun c => c ≠ '.') with
  | [] =>
      if !intPart.isEmpty && intPart.all Char.isDigit then
        some (digitsVal intPart, 0)
      else none
  | _ :: frac =>
      if !(intPart ++ frac).isEmpty && intPart.all Char.isDigit
          && frac.all Char.isDigit then
        some (digitsVal intPart * 10 ^ frac.length + digitsVal frac, frac.length)
      else none

/-- Signed decimal literal, optional leading `-` or `+`: `some (z, k)`
denotes the value `z / 10 ^ k`. -/
def parseDecimal (s : List Char) : Option (Int × Nat) :=
  match s with
  | '-' :: r => (parseUnsignedDecimal r).map (fun p => (-(p.1 : Int), p.2))
  | '+' :: r => (parseUnsignedDecimal r).map (fun p => ((p.1 : Int), p.2))
  | r => (parseUnsignedDecimal r).map (fun p => ((p.1 : Int), p.2))

/-- The suffix table of `HumanNumber::from_str`: lowercase suffixes are
binary multipliers, uppercase decimal, the empty suffix is `1.0`, anything
else is the `unknown suffix` error (`none`). -/
def suffixMult : List Char → Option Nat
  | ['k'] => some 1024
  | ['K'] => some 1000
  | ['m'] => some (1024 * 1024)
  | ['M'] => some (1000 * 1000)
  | ['g'] => some (1024 * 1024 * 1024)
  | ['G'] => some (1000 * 1000 * 1000)
  | [] => some 1
  | _ => none

/-- Rust's saturating `as u64` cast of the product `(z / 10 ^ k) * m`:
negative values clamp to `0`, values at or above `2 ^ 64` clamp to
`2 ^ 64 - 1`, and fractional values truncate toward zero (for a
nonnegative numerator, truncation is exactly the `Nat` division by
`10 ^ k`). -/
def truncProduct (z : Int) (k m : Nat) : Nat :=
  if z < 0 then 0 else min (z.toNat * m / 10 ^ k) (2 ^ 64 - 1)

/-- Outcome of `HumanNumber::from_str`: a value, an error string, or a Rust
panic (an out-of-bounds `split_at`). -/
inductive ParseOut where
  | panic
  | error (msg : String)
  | ok (n : Nat)
deriving DecidableEq, Repr

/-- Rust `HumanNumber::from_str`, lines 99–118 of `main.rs`.  Note the source
splits the *trimmed* string at index `s.len() - 1` computed from the
*untrimmed* string; `split_at` past the end of the trimmed string is a Rust
panic. -/
def fromStrChars (s : List Char) : ParseOut :=
  if s.isEmpty then .error "Empty string"
  else
    let t := trimChars s
    let mid := s.length - 1
    if t.length < mid then .panic
    else
      match parseDecimal (t.take mid) with
      | none => .error "Invalid number"
      | some p =>
          match suffixMult (t.drop mid) with
          | none => .error ("unknown suffix '" ++ String.mk (t.drop mid) ++ "'")
          | some m => .ok (truncProduct p.1 p.2 m)

/-- Rust `HumanNumber::from_str` on a `String`. -/
def fromStr (s : String) : ParseOut :=
  fromStrChars s.data

/-! ## Report formatting and materialization -/

/-- The percentage computation of `Bucket::fmt`, line 50:
`self.size * 100 / self.capacity` in unguarded `u64` arithmetic.  The
product wraps modulo `2 ^ 64`; division by zero is a panic, modelled as
`none`. -/
def percent (size cap : Nat) : Option Nat :=
  if cap = 0 then none
  else some (size * 100 % 2 ^ 64 / cap)

/-- The target path `Bucket::link` computes for one member file, lines 76–77:
`let mut target = self.path.clone(); target.push(file.path.clone());`. -/
def Bucket.target (b : Bucket) (f : FileInfo) : RPath :=
  b.path.push f.path

/-- Strip a leading `root` from `p` when `root` is a prefix of `p`. -/
def stripRoot (root p : List String) : List String :=
  if root.isPrefixOf p then p.drop root.length else p

/-- Modelled from the spec: the target path §4.4 describes — join the
destination root, the zero-padded numbered bucket subdirectory, and the
file's path relative to the source root.  Stated from the spec's words, for
comparison with the code's `Bucket.target`. -/
def specTarget (dest : RPath) (n : Nat) (sourceRoot : RPath) (f : FileInfo) : RPath :=
  ⟨dest.absolute, dest.components ++ [pad3 n] ++
    stripRoot sourceRoot.components f.path.components⟩

/-- Rust `Bucket::link` abstracted over the filesystem: `fails f` says whether the
`fs::hard_link` call for `f` returns an `Err`.  The loop visits members in
order and the `?` operator returns at the first failure.  Result: the files
actually linked (in order) and whether the method returned `Err`. -/
def linkRun (contents : List FileInfo) (fails : FileInfo → Bool) :
    List FileInfo × Bool :=
  match contents with
  | [] => ([], false)
  | f :: fs =>
      if fails f then ([], true)
      else
        let r := linkRun fs fails
        (f :: r.1, r.2)

/-- Lines 266–274 of `main`: call `link` on each bucket in order; an `Err` is
printed and the loop continues with the next bucket.  Result: every file
linked over the whole run, in order. -/
def mainLink (buckets : List Bucket) (fails : FileInfo → Bool) : List FileInfo :=
  match buckets with
  | [] => []
  | b :: bs => (linkRun b.contents fails).1 ++ mainLink bs fails

/-! ## Helper lemmas about `Bucket.add` and the first-fit scan -/

/-- Total size of a list of files. -/
def sizeSum (l : List FileInfo) : Nat :=
  (l.map FileInfo.size).sum

/-- All files stored across a list of buckets, in bucket-then-admission
order. -/
def allFiles (bs : List Bucket) : List FileInfo :=
  (bs.map Bucket.contents).flatten

theorem add_of_le {b : Bucket} {f : FileInfo} (h : b.size + f.size ≤ b.capacity) :
    b.add f = (⟨b.path, b.capacity, b.size + f.size, b.contents ++ [f]⟩, true) := by
  simp [Bucket.add, h]

theorem add_of_gt {b : Bucket} {f : FileInfo} (h : ¬ b.size + f.size ≤ b.capacity) :
    b.add f = (b, false) := by
  simp [Bucket.add, h]

theorem add_true_iff {b : Bucket} {f : FileInfo} :
    (b.add f).2 = true ↔ b.size + f.size ≤ b.capacity := by
  by_cases h : b.size + f.size ≤ b.capacity
  · simp [add_of_le h, h]
  · simp [add_of_gt h, h]

theorem add_fst_of_false {b : Bucket} {f : FileInfo} (h : (b.add f).2 = false) :
    (b.add f).1 = b := by
  by_cases hle : b.size + f.size ≤ b.capacity
  · rw [add_of_le hle] at h; simp at h
  · rw [add_of_gt hle]

theorem add_fst_of_true {b : Bucket} {f : FileInfo} (h : (b.add f).2 = true) :
    (b.add f).1 = ⟨b.path, b.capacity, b.size + f.size, b.contents ++ [f]⟩ := by
  by_cases hle : b.size + f.size ≤ b.capacity
  · rw [add_of_le hle]
  · rw [add_of_gt hle] at h; simp at h

/-- Decomposition of a successful first-fit scan: the bucket list splits as
`pre ++ b :: post` where every bucket of `pre` rejected the file, `b`
admitted it, and the result replaces `b` by the updated bucket. -/
theorem tryAddFirst_eq_some (f : FileInfo) :
    ∀ (bs bs' : List Bucket), tryAddFirst bs f = some bs' →
      ∃ pre b post, bs = pre ++ b :: post ∧
        bs' = pre ++ (b.add f).1 :: post ∧
        (b.add f).2 = true ∧
        ∀ c ∈ pre, (c.add f).2 = false := by
  intro bs
  induction bs with
  | nil => intro bs' h; simp [tryAddFirst] at h
  | cons b rest ih =>
      intro bs' h
      simp only [tryAddFirst] at h
      by_cases hb : (b.add f).2 = true
      · rw [if_pos hb] at h
        refine ⟨[], b, rest, rfl, ?_, hb, by simp⟩
        simpa using h.symm
      · rw [if_neg hb] at h
        have hbf : (b.add f).2 = false := by
          cases hval : (b.add f).2
          · rfl
          · exact absurd hval hb
        cases hrec : tryAddFirst rest f with
        | none => rw [hrec] at h; simp at h
        | some bs2 =>
            rw [hrec] at h
            simp only [Option.map_some'] at h
            obtain ⟨pre, c, post, hsplit, hbs2, hc, hpre⟩ := ih bs2 hrec
            refine ⟨b :: pre, c, post, by simp [hsplit], ?_, hc, ?_⟩
            · have hbs' : bs' = (b.add f).1 :: bs2 := by
                injection h with h2
                exact h2.symm
              rw [hbs', add_fst_of_false hbf, hbs2]
              simp
            · intro x hx
              rcases List.mem_cons.mp hx with hx | hx
              · subst hx; exact hbf
              · exact hpre x hx

/-! ## The packing-loop invariant -/

/-- Invariant of `main`'s packing loop after processing `processed`: the
namer counter equals the bucket count, every bucket has the configured
capacity, respects it, carries the exact sum of its members' sizes and is
nonempty, the members across all buckets are a permutation of the processed
files, and the bucket paths are the numbered directories `1, 2, …` in
creation order. -/
def Inv (cap : Nat) (dest : RPath) (processed : List FileInfo) (st : PackState) : Prop :=
  st.buckets.length = st.count ∧
  (∀ b ∈ st.buckets,
    b.capacity = cap ∧ b.size ≤ cap ∧ b.size = sizeSum b.contents ∧ b.contents ≠ []) ∧
  (allFiles st.buckets).Perm processed ∧
  st.buckets.map Bucket.path = (List.range st.count).map (fun i => bucketPath dest (i + 1))

theorem allFiles_append (bs cs : List Bucket) :
    allFiles (bs ++ cs) = allFiles bs ++ allFiles cs := by
  simp [allFiles]

theorem packStep_inv {cap : Nat} {dest : RPath} {processed : List FileInfo}
    {st : PackState} {f : FileInfo} (hf : f.size ≤ cap)
    (h : Inv cap dest processed st) :
    Inv cap dest (processed ++ [f]) (packStep cap dest st f) := by
  obtain ⟨hlen, hbkt, hperm, hpaths⟩ := h
  cases htry : tryAddFirst st.buckets f with
  | none =>
      have hstep : packStep cap dest st f =
          ⟨st.buckets ++ [⟨bucketPath dest (st.count + 1), cap, f.size, [f]⟩],
           st.count + 1⟩ := by
        unfold packStep
        rw [htry]
      rw [hstep]
      refine ⟨by simp [hlen], ?_, ?_, ?_⟩
      · intro b hb
        rcases List.mem_append.mp hb with hb | hb
        · exact hbkt b hb
        · simp only [List.mem_singleton] at hb
          subst hb
          exact ⟨rfl, hf, by simp [sizeSum], by simp⟩
      · rw [allFiles_append]
        have : allFiles [⟨bucketPath dest (st.count + 1), cap, f.size, [f]⟩] = [f] := by
          simp [allFiles]
        rw [this]
        exact hperm.append_right [f]
      · simp only [List.map_append, hpaths, List.range_succ, List.map_cons,
          List.map_nil, hlen]
  | some bs' =>
      have hstep : packStep cap dest st f = ⟨bs', st.count⟩ := by
        unfold packStep
        rw [htry]
      rw [hstep]
      obtain ⟨pre, b, post, hsplit, hbs', hadd, hpre⟩ := tryAddFirst_eq_some f _ _ htry
      have hb_mem : b ∈ st.buckets := by rw [hsplit]; simp
      obtain ⟨hcapb, hszle, hsum, hne⟩ := hbkt b hb_mem
      have hle : b.size + f.size ≤ b.capacity := add_true_iff.mp hadd
      have hupd : (b.add f).1 = ⟨b.path, b.capacity, b.size + f.size, b.contents ++ [f]⟩ :=
        add_fst_of_true hadd
      refine ⟨?_, ?_, ?_, ?_⟩
      · simp only [hbs', hsplit, List.length_append, List.length_cons] at hlen ⊢
        exact hlen
      · intro c hc
        rw [hbs'] at hc
        rcases List.mem_append.mp hc with hc | hc
        · exact hbkt c (by rw [hsplit]; exact List.mem_append.mpr (Or.inl hc))
        · rcases List.mem_cons.mp hc with hc | hc
          · subst hc
            rw [hupd]
            refine ⟨hcapb, by rw [← hcapb]; exact hle, ?_, by simp⟩
            simp [sizeSum, hsum]
          · exact hbkt c (by rw [hsplit]; exact List.mem_append.mpr (Or.inr (List.mem_cons.mpr (Or.inr hc))))
      · rw [hbs', hupd]
        have step1 : allFiles (pre ++ (⟨b.path, b.capacity, b.size + f.size,
            b.contents ++ [f]⟩ : Bucket) :: post) =
            allFiles pre ++ ((b.contents ++ [f]) ++ allFiles post) := by
          simp [allFiles]
        rw [step1]
        have hold : allFiles pre ++ (b.contents ++ allFiles post) = allFiles st.buckets := by
          rw [hsplit]
          simp [allFiles]
        have e1 : allFiles pre ++ ((b.contents ++ [f]) ++ allFiles post) =
            allFiles pre ++ (b.contents ++ ([f] ++ allFiles post)) := by
          simp [List.append_assoc]
        have p2 : (allFiles pre ++ (b.contents ++ ([f] ++ allFiles post))).Perm
            (allFiles pre ++ (b.contents ++ (allFiles post ++ [f]))) :=
          List.Perm.append_left _ (List.Perm.append_left _ List.perm_append_comm)
        have e3 : allFiles pre ++ (b.contents ++ (allFiles post ++ [f])) =
            (allFiles pre ++ (b.contents ++ allFiles post)) ++ [f] := by
          simp [List.append_assoc]
        rw [e1]
        refine p2.trans ?_
        rw [e3, hold]
        exact hperm.append_right [f]
      · simp only [hbs']
        show (pre ++ (b.add f).1 :: post).map Bucket.path =
            (List.range st.count).map (fun i => bucketPath dest (i + 1))
        have : (pre ++ (b.add f).1 :: post).map Bucket.path =
            (pre ++ b :: post).map Bucket.path := by
          simp [hupd]
        rw [this, ← hsplit]
        exact hpaths

theorem packFold_inv {cap : Nat} {dest : RPath} :
    ∀ (files : List FileInfo) (st : PackState) (processed : List FileInfo),
      Inv cap dest processed st → (∀ f ∈ files, f.size ≤ cap) →
      Inv cap dest (processed ++ files) (files.foldl (packStep cap dest) st) := by
  intro files
  induction files with
  | nil => intro st processed h _; simpa using h
  | cons f fs ih =>
      intro st processed h hle
      have h1 : Inv cap dest (processed ++ [f]) (packStep cap dest st f) :=
        packStep_inv (hle f (by simp)) h
      have h2 := ih (packStep cap dest st f) (processed ++ [f]) h1
        (fun g hg => hle g (by simp [hg]))
      simpa [List.append_assoc] using h2

theorem inv_nil (cap : Nat) (dest : RPath) :
    Inv cap dest [] (⟨[], 0⟩ : PackState) := by
  refine ⟨rfl, by simp, ?_, by simp⟩
  simp [allFiles]

theorem packAll_inv {cap : Nat} {dest : RPath} {files : List FileInfo}
    (hle : ∀ f ∈ files, f.size ≤ cap) :
    Inv cap dest files ⟨packAll cap dest files,
      (files.foldl (packStep cap dest) ⟨[], 0⟩).count⟩ := by
  have := packFold_inv files ⟨[], 0⟩ [] (inv_nil cap dest) hle
  simpa [packAll] using this

/-- Bucket-size totals agree with the member-size total when every bucket's
`size` field is exact. -/
theorem sum_sizes_eq (bs : List Bucket)
    (h : ∀ b ∈ bs, b.size = sizeSum b.contents) :
    (bs.map Bucket.size).sum = sizeSum (allFiles bs) := by
  induction bs with
  | nil => simp [allFiles, sizeSum]
  | cons b rest ih =>
      have hb : b.size = sizeSum b.contents := h b (by simp)
      have hrest : (rest.map Bucket.size).sum = sizeSum (allFiles rest) :=
        ih (fun c hc => h c (by simp [hc]))
      simp only [List.map_cons, List.sum_cons, hb, hrest, allFiles,
        List.flatten_cons, sizeSum, List.map_append, List.sum_append]

/-- Permutations preserve the size total. -/
theorem sizeSum_perm {l₁ l₂ : List FileInfo} (h : l₁.Perm l₂) :
    sizeSum l₁ = sizeSum l₂ :=
  (h.map FileInfo.size).sum_eq

/-! ## Facts about the descending sort -/

theorem leBySize_trans :
    ∀ a b c : FileInfo, (decide (b.size ≤ a.size)) → (decide (c.size ≤ b.size)) →
      (decide (c.size ≤ a.size)) := by
  intro a b c hab hbc
  simp only [decide_eq_true_eq] at *
  omega

theorem leBySize_total :
    ∀ a b : FileInfo, (decide (b.size ≤ a.size)) || (decide (a.size ≤ b.size)) := by
  intro a b
  simp only [Bool.or_eq_true, decide_eq_true_eq]
  omega

theorem sortDesc_perm (files : List FileInfo) : (sortDesc files).Perm files :=
  List.mergeSort_perm files _

theorem sortDesc_sorted (files : List FileInfo) :
    (sortDesc files).Pairwise (fun a b => b.size ≤ a.size) := by
  have h := @List.sorted_mergeSort FileInfo
    (fun a b : FileInfo => decide (b.size ≤ a.size))
    leBySize_trans leBySize_total files
  exact h.imp (fun hab => by simpa using hab)

theorem sortDesc_length (files : List FileInfo) :
    (sortDesc files).length = files.length :=
  (sortDesc_perm files).length_eq

/-- Stability: two files of equal size keep their relative input order. -/
theorem sortDesc_stable {files : List FileInfo} {a b : FileInfo}
    (hsz : a.size = b.size) (hsub : [a, b].Sublist files) :
    [a, b].Sublist (sortDesc files) := by
  apply List.sublist_mergeSort leBySize_trans leBySize_total
  · exact List.pairwise_pair.mpr (by simp [hsz])
  · exact hsub

/-- Successful run of `pack`: with a nonempty input whose files all fit, the
precondition checks pass and the first-fit loop output is returned. -/
theorem pack_ok {cap : Nat} {dest : RPath} {files : List FileInfo}
    (hne : files ≠ []) (hle : ∀ f ∈ files, f.size ≤ cap) :
    pack cap dest files = .ok (packAll cap dest (sortDesc files)) := by
  cases files with
  | nil => exact absurd rfl hne
  | cons a l =>
      show pack cap dest (a :: l) = _
      unfold pack
      simp only [List.isEmpty_cons, Bool.false_eq_true, if_false]
      cases hs : sortDesc (a :: l) with
      | nil =>
          have hl := sortDesc_length (a :: l)
          rw [hs] at hl
          simp at hl
      | cons f fs =>
          have hf_mem : f ∈ (a :: l) := by
            have hmem : f ∈ sortDesc (a :: l) := by rw [hs]; simp
            exact (sortDesc_perm (a :: l)).subset hmem
          have hnotlt : ¬ cap < f.size := by
            have := hle f hf_mem
            omega
          show (if cap < f.size then Except.error (PackError.unpackable f)
              else Except.ok (packAll cap dest (f :: fs))) =
            Except.ok (packAll cap dest (f :: fs))
          rw [if_neg hnotlt]

/-- C1.  For every non-empty list of files in which every file's size is at
most the capacity, packing succeeds and produces a plan in which the members
of the buckets are a permutation of the input files (each input appears in
exactly one member list: no duplicates, no omissions), every bucket's
`size` is at most the capacity, the bucket paths are the numbered
directories `001, 002, …` in creation order, and the total bucket size
equals the total input size. -/
theorem pack_partition_invariants (cap : Nat) (dest : RPath) (files : List FileInfo)
    (hne : files ≠ []) (hle : ∀ f ∈ files, f.size ≤ cap) :
    ∃ bs, pack cap dest files = .ok bs ∧
      (allFiles bs).Perm files ∧
      (∀ b ∈ bs, b.size ≤ cap) ∧
      bs.map Bucket.path = (List.range bs.length).map (fun i => bucketPath dest (i + 1)) ∧
      (bs.map Bucket.size).sum = sizeSum files := by
  refine ⟨packAll cap dest (sortDesc files), pack_ok hne hle, ?_⟩
  have hles : ∀ f ∈ sortDesc files, f.size ≤ cap :=
    fun f hf => hle f ((sortDesc_perm files).subset hf)
  obtain ⟨hlen, hbkt, hperm, hpaths⟩ := @packAll_inv cap dest (sortDesc files) hles
  have hperm2 : (allFiles (packAll cap dest (sortDesc files))).Perm files :=
    hperm.trans (sortDesc_perm files)
  refine ⟨hperm2, fun b hb => (hbkt b hb).2.1, ?_, ?_⟩
  · rw [show (packAll cap dest (sortDesc files)).length =
      ((sortDesc files).foldl (packStep cap dest) ⟨[], 0⟩).count from hlen]
    exact hpaths
  · rw [sum_sizes_eq _ (fun b hb => (hbkt b hb).2.2.1)]
    exact sizeSum_perm hperm2

/-- Witness for C1 at a concrete input. -/
theorem pack_partition_invariants_inst :
    ∃ bs, pack 15 ⟨false, ["part"]⟩ [⟨⟨false, ["a"]⟩, 10⟩, ⟨⟨false, ["b"]⟩, 7⟩] = .ok bs ∧
      (allFiles bs).Perm [⟨⟨false, ["a"]⟩, 10⟩, ⟨⟨false, ["b"]⟩, 7⟩] ∧
      (∀ b ∈ bs, b.size ≤ 15) ∧
      bs.map Bucket.path =
        (List.range bs.length).map (fun i => bucketPath ⟨false, ["part"]⟩ (i + 1)) ∧
      (bs.map Bucket.size).sum = sizeSum [⟨⟨false, ["a"]⟩, 10⟩, ⟨⟨false, ["b"]⟩, 7⟩] :=
  pack_partition_invariants 15 ⟨false, ["part"]⟩
    [⟨⟨false, ["a"]⟩, 10⟩, ⟨⟨false, ["b"]⟩, 7⟩]
    (by decide) (by decide)

/-! ## Error paths of `pack`, and the capacity-sized-file boundary -/

/-- Packing the empty list fails with the empty-input error. -/
theorem pack_nil (cap : Nat) (dest : RPath) :
    pack cap dest [] = .error .emptyInput := rfl

/-- When some file exceeds the capacity, `pack` fails with `unpackable`
carried by a file of maximal size, before producing any plan. -/
theorem pack_unpackable {cap : Nat} {dest : RPath} {files : List FileInfo}
    (hne : files ≠ []) (hbig : ∃ f ∈ files, cap < f.size) :
    ∃ g, pack cap dest files = .error (.unpackable g) ∧ g ∈ files ∧
      ∀ f ∈ files, f.size ≤ g.size := by
  cases files with
  | nil => exact absurd rfl hne
  | cons a l =>
      cases hs : sortDesc (a :: l) with
      | nil =>
          have hl := sortDesc_length (a :: l)
          rw [hs] at hl
          simp at hl
      | cons g gs =>
          have hsorted := sortDesc_sorted (a :: l)
          rw [hs] at hsorted
          have hmax : ∀ f ∈ (a :: l), f.size ≤ g.size := by
            intro f hf
            have hf2 : f ∈ g :: gs := by
              rw [← hs]
              exact ((sortDesc_perm (a :: l)).mem_iff).mpr hf
            rcases List.mem_cons.mp hf2 with hf2 | hf2
            · subst hf2; exact le_refl _
            · exact (List.pairwise_cons.mp hsorted).1 f hf2
          have hg_mem : g ∈ (a :: l) := by
            have hmem : g ∈ sortDesc (a :: l) := by rw [hs]; simp
            exact (sortDesc_perm (a :: l)).subset hmem
          have hglt : cap < g.size := by
            obtain ⟨f, hf, hflt⟩ := hbig
            exact lt_of_lt_of_le hflt (hmax f hf)
          refine ⟨g, ?_, hg_mem, hmax⟩
          show pack cap dest (a :: l) = _
          unfold pack
          simp only [List.isEmpty_cons, Bool.false_eq_true, if_false]
          rw [hs]
          show (if cap < g.size then Except.error (PackError.unpackable g)
              else Except.ok (packAll cap dest (g :: gs))) = _
          rw [if_pos hglt]

/-- A bucket containing a capacity-sized member is that member alone, as
long as every file processed so far has positive size. -/
def InvSolo (cap : Nat) (st : PackState) : Prop :=
  ∀ b ∈ st.buckets, ∀ f ∈ b.contents, f.size = cap → b.contents = [f]

theorem packStep_solo {cap : Nat} {dest : RPath} {processed : List FileInfo}
    {st : PackState} {f : FileInfo}
    (hinv : Inv cap dest processed st) (hsolo : InvSolo cap st)
    (hpos : ∀ g ∈ processed, 0 < g.size)
    (hfpos : 0 < f.size) :
    InvSolo cap (packStep cap dest st f) := by
  obtain ⟨hlen, hbkt, hperm, hpaths⟩ := hinv
  cases htry : tryAddFirst st.buckets f with
  | none =>
      have hstep : packStep cap dest st f =
          ⟨st.buckets ++ [⟨bucketPath dest (st.count + 1), cap, f.size, [f]⟩],
           st.count + 1⟩ := by
        unfold packStep
        rw [htry]
      rw [hstep]
      intro b hb
      rcases List.mem_append.mp hb with hb | hb
      · exact hsolo b hb
      · simp only [List.mem_singleton] at hb
        subst hb
        intro x hx hxcap
        simp only [List.mem_singleton] at hx
        subst hx
        rfl
  | some bs' =>
      have hstep : packStep cap dest st f = ⟨bs', st.count⟩ := by
        unfold packStep
        rw [htry]
      rw [hstep]
      obtain ⟨pre, b, post, hsplit, hbs', hadd, hpre⟩ := tryAddFirst_eq_some f _ _ htry
      have hb_mem : b ∈ st.buckets := by rw [hsplit]; simp
      obtain ⟨hcapb, hszle, hsum, hne⟩ := hbkt b hb_mem
      have hle : b.size + f.size ≤ b.capacity := add_true_iff.mp hadd
      have hupd : (b.add f).1 = ⟨b.path, b.capacity, b.size + f.size, b.contents ++ [f]⟩ :=
        add_fst_of_true hadd
      intro c hc
      show ∀ x ∈ c.contents, x.size = cap → c.contents = [x]
      rw [hbs'] at hc
      rcases List.mem_append.mp hc with hc | hc
      · exact hsolo c (by rw [hsplit]; exact List.mem_append.mpr (Or.inl hc))
      · rcases List.mem_cons.mp hc with hc | hc
        · subst hc
          rw [hupd]
          intro x hx hxcap
          simp only [List.mem_append, List.mem_singleton] at hx
          rcases hx with hx | hx
          · -- an old member of `b` has size `cap`: then `b` was the
            -- singleton `[x]` already full, and the admission guard forces
            -- `f.size = 0`, contradicting positivity
            have hsingle : b.contents = [x] := hsolo b hb_mem x hx hxcap
            have : b.size = cap := by
              rw [hsum, hsingle]
              simp [sizeSum, hxcap]
            rw [hcapb] at hle
            omega
          · -- the new file has size `cap`: the guard forces `b.size = 0`,
            -- impossible for a nonempty bucket of positive-size members
            subst hx
            rw [hcapb] at hle
            have hbzero : b.size = 0 := by omega
            obtain ⟨m, hm⟩ := List.exists_mem_of_ne_nil b.contents hne
            have hmall : m ∈ allFiles st.buckets := by
              refine List.mem_flatten.mpr ⟨b.contents, ?_, hm⟩
              exact List.mem_map_of_mem Bucket.contents hb_mem
            have hmproc : m ∈ processed := hperm.subset hmall
            have hmpos : 0 < m.size := hpos m hmproc
            have hmle : m.size ≤ sizeSum b.contents := by
              have : m.size ∈ b.contents.map FileInfo.size :=
                List.mem_map_of_mem FileInfo.size hm
              exact List.le_sum_of_mem this
            rw [← hsum, hbzero] at hmle
            omega
        · exact hsolo c (by
            rw [hsplit]
            exact List.mem_append.mpr (Or.inr (List.mem_cons.mpr (Or.inr hc))))

theorem packFold_solo {cap : Nat} {dest : RPath} :
    ∀ (files : List FileInfo) (st : PackState) (processed : List FileInfo),
      Inv cap dest processed st → InvSolo cap st →
      (∀ g ∈ processed, 0 < g.size) →
      (∀ f ∈ files, 0 < f.size ∧ f.size ≤ cap) →
      InvSolo cap (files.foldl (packStep cap dest) st) := by
  intro files
  induction files with
  | nil => intro st processed _ hsolo _ _; simpa using hsolo
  | cons f fs ih =>
      intro st processed hinv hsolo hpos hfiles
      have h1 : Inv cap dest (processed ++ [f]) (packStep cap dest st f) :=
        packStep_inv (hfiles f (by simp)).2 hinv
      have h2 : InvSolo cap (packStep cap dest st f) :=
        packStep_solo hinv hsolo hpos (hfiles f (by simp)).1
      have h3 : ∀ g ∈ processed ++ [f], 0 < g.size := by
        intro g hg
        rcases List.mem_append.mp hg with hg | hg
        · exact hpos g hg
        · simp only [List.mem_singleton] at hg
          subst hg
          exact (hfiles g (by simp)).1
      exact ih (packStep cap dest st f) (processed ++ [f]) h1 h2 h3
        (fun g hg => hfiles g (by simp [hg]))

/-- C2, counterexample.  A file whose size exactly equals the capacity is
*not* necessarily alone in its bucket: with capacity `10` and files of sizes
`10` and `0`, the zero-size file is admitted into the full bucket
(`10 + 0 ≤ 10`), so the capacity-sized file shares its bucket. -/
theorem capacity_file_not_alone_cex :
    pack 10 ⟨false, ["part"]⟩ [⟨⟨false, ["a"]⟩, 10⟩, ⟨⟨false, ["b"]⟩, 0⟩] =
      .ok [⟨⟨false, ["part", "001"]⟩, 10, 10,
        [⟨⟨false, ["a"]⟩, 10⟩, ⟨⟨false, ["b"]⟩, 0⟩]⟩] := by
  have hok := @pack_ok 10 ⟨false, ["part"]⟩
    [⟨⟨false, ["a"]⟩, 10⟩, ⟨⟨false, ["b"]⟩, 0⟩]
    (by decide) (by decide)
  have hs : sortDesc [⟨⟨false, ["a"]⟩, 10⟩, ⟨⟨false, ["b"]⟩, 0⟩] =
      [⟨⟨false, ["a"]⟩, 10⟩, ⟨⟨false, ["b"]⟩, 0⟩] :=
    List.mergeSort_of_sorted (by decide)
  rw [hok, hs]
  rfl

/-- C2 (amended).  Packing fails with the empty-input error on an empty
list; it fails with `unpackable` — carried by a file of maximal size, with
no plan produced — when some file strictly exceeds the capacity; a file
whose size is exactly the capacity is admitted (packing succeeds whenever
all sizes are at most the capacity); and when additionally every file has
positive size, each capacity-sized file ends up alone in a bucket whose
`size` equals the capacity. -/
theorem pack_errors_and_boundary :
    (∀ (cap : Nat) (dest : RPath), pack cap dest [] = .error .emptyInput) ∧
    (∀ (cap : Nat) (dest : RPath) (files : List FileInfo), files ≠ [] →
      (∃ f ∈ files, cap < f.size) →
      ∃ g, pack cap dest files = .error (.unpackable g) ∧ g ∈ files ∧
        ∀ f ∈ files, f.size ≤ g.size) ∧
    (∀ (cap : Nat) (dest : RPath) (files : List FileInfo), files ≠ [] →
      (∀ f ∈ files, f.size ≤ cap) →
      ∃ bs, pack cap dest files = .ok bs) ∧
    (∀ (cap : Nat) (dest : RPath) (files : List FileInfo), files ≠ [] →
      (∀ f ∈ files, 0 < f.size ∧ f.size ≤ cap) →
      ∃ bs, pack cap dest files = .ok bs ∧
        ∀ g ∈ files, g.size = cap →
          ∃ b ∈ bs, b.contents = [g] ∧ b.size = cap) := by
  refine ⟨fun cap dest => pack_nil cap dest,
    fun cap dest files hne hbig => pack_unpackable hne hbig,
    fun cap dest files hne hle => ⟨_, pack_ok hne hle⟩,
    fun cap dest files hne hfp => ?_⟩
  have hle : ∀ f ∈ files, f.size ≤ cap := fun f hf => (hfp f hf).2
  refine ⟨packAll cap dest (sortDesc files), pack_ok hne hle, ?_⟩
  intro g hg hgcap
  have hles : ∀ f ∈ sortDesc files, f.size ≤ cap :=
    fun f hf => hle f ((sortDesc_perm files).subset hf)
  obtain ⟨hlen, hbkt, hperm, hpaths⟩ := @packAll_inv cap dest (sortDesc files) hles
  have hsolo : InvSolo cap ((sortDesc files).foldl (packStep cap dest) ⟨[], 0⟩) := by
    refine packFold_solo (sortDesc files) ⟨[], 0⟩ [] (inv_nil cap dest) ?_ ?_ ?_
    · intro b hb; simp at hb
    · intro g hg; simp at hg
    · intro f hf
      exact hfp f ((sortDesc_perm files).subset hf)
  have hgs : g ∈ allFiles (packAll cap dest (sortDesc files)) := by
    refine hperm.mem_iff.mpr ?_
    exact ((sortDesc_perm files).mem_iff).mpr hg
  obtain ⟨lst, hlst, hglst⟩ := List.mem_flatten.mp hgs
  obtain ⟨b, hb, rfl⟩ := List.mem_map.mp hlst
  have hsingle : b.contents = [g] := hsolo b hb g hglst hgcap
  refine ⟨b, hb, hsingle, ?_⟩
  have := (hbkt b hb).2.2.1
  rw [this, hsingle]
  simp [sizeSum, hgcap]

/-- Witness for C2 at concrete inputs: an oversized file is rejected with
the maximal file reported, and a capacity-sized positive file ends up alone
in a full bucket. -/
theorem pack_errors_and_boundary_inst :
    (∃ g : FileInfo, pack 10 ⟨false, ["part"]⟩ [⟨⟨false, ["a"]⟩, 20⟩] =
        .error (.unpackable g) ∧ g ∈ ([⟨⟨false, ["a"]⟩, 20⟩] : List FileInfo) ∧
        ∀ f ∈ ([⟨⟨false, ["a"]⟩, 20⟩] : List FileInfo), f.size ≤ g.size) ∧
    (∃ bs : List Bucket,
      pack 10 ⟨false, ["part"]⟩ [⟨⟨false, ["a"]⟩, 10⟩, ⟨⟨false, ["b"]⟩, 4⟩] = .ok bs ∧
      ∀ g ∈ ([⟨⟨false, ["a"]⟩, 10⟩, ⟨⟨false, ["b"]⟩, 4⟩] : List FileInfo), g.size = 10 →
        ∃ b ∈ bs, b.contents = [g] ∧ b.size = 10) :=
  ⟨pack_errors_and_boundary.2.1 10 ⟨false, ["part"]⟩ [⟨⟨false, ["a"]⟩, 20⟩]
      (by decide) (by decide),
   pack_errors_and_boundary.2.2.2 10 ⟨false, ["part"]⟩
      [⟨⟨false, ["a"]⟩, 10⟩, ⟨⟨false, ["b"]⟩, 4⟩] (by decide) (by decide)⟩

/-- C3.  Packing sorts by size descending with ties in input order (the
sort is a permutation, its output is pairwise descending, and equal-size
pairs keep their relative order), admits each file into the first bucket of
the creation-order scan whose `add` succeeds (every earlier bucket rejected
it), and on the two spec scenarios produces three singleton buckets for
sizes `[10, 10, 10]` at capacity `15` and two two-file buckets for sizes
`[6, 6, 6, 6]` at capacity `12`. -/
theorem pack_first_fit_and_scenarios :
    (∀ files : List FileInfo, (sortDesc files).Perm files) ∧
    (∀ files : List FileInfo, (sortDesc files).Pairwise (fun a b => b.size ≤ a.size)) ∧
    (∀ (files : List FileInfo) (a b : FileInfo), a.size = b.size →
      [a, b].Sublist files → [a, b].Sublist (sortDesc files)) ∧
    (∀ (bs bs' : List Bucket) (f : FileInfo), tryAddFirst bs f = some bs' →
      ∃ pre b post, bs = pre ++ b :: post ∧ bs' = pre ++ (b.add f).1 :: post ∧
        (b.add f).2 = true ∧ ∀ c ∈ pre, (c.add f).2 = false) ∧
    pack 15 ⟨false, ["part"]⟩
        [⟨⟨false, ["a"]⟩, 10⟩, ⟨⟨false, ["b"]⟩, 10⟩, ⟨⟨false, ["c"]⟩, 10⟩] =
      .ok [⟨⟨false, ["part", "001"]⟩, 15, 10, [⟨⟨false, ["a"]⟩, 10⟩]⟩,
           ⟨⟨false, ["part", "002"]⟩, 15, 10, [⟨⟨false, ["b"]⟩, 10⟩]⟩,
           ⟨⟨false, ["part", "003"]⟩, 15, 10, [⟨⟨false, ["c"]⟩, 10⟩]⟩] ∧
    pack 12 ⟨false, ["part"]⟩
        [⟨⟨false, ["a"]⟩, 6⟩, ⟨⟨false, ["b"]⟩, 6⟩, ⟨⟨false, ["c"]⟩, 6⟩,
         ⟨⟨false, ["d"]⟩, 6⟩] =
      .ok [⟨⟨false, ["part", "001"]⟩, 12, 12,
             [⟨⟨false, ["a"]⟩, 6⟩, ⟨⟨false, ["b"]⟩, 6⟩]⟩,
           ⟨⟨false, ["part", "002"]⟩, 12, 12,
             [⟨⟨false, ["c"]⟩, 6⟩, ⟨⟨false, ["d"]⟩, 6⟩]⟩] := by
  refine ⟨sortDesc_perm, sortDesc_sorted,
    fun files a b hsz hsub => sortDesc_stable hsz hsub,
    fun bs bs' f h => tryAddFirst_eq_some f bs bs' h, ?_, ?_⟩
  · have hok := @pack_ok 15 ⟨false, ["part"]⟩
      [⟨⟨false, ["a"]⟩, 10⟩, ⟨⟨false, ["b"]⟩, 10⟩, ⟨⟨false, ["c"]⟩, 10⟩]
      (by decide) (by decide)
    have hs : sortDesc [⟨⟨false, ["a"]⟩, 10⟩, ⟨⟨false, ["b"]⟩, 10⟩, ⟨⟨false, ["c"]⟩, 10⟩] =
        [⟨⟨false, ["a"]⟩, 10⟩, ⟨⟨false, ["b"]⟩, 10⟩, ⟨⟨false, ["c"]⟩, 10⟩] :=
      List.mergeSort_of_sorted (by decide)
    rw [hok, hs]
    rfl
  · have hok := @pack_ok 12 ⟨false, ["part"]⟩
      [⟨⟨false, ["a"]⟩, 6⟩, ⟨⟨false, ["b"]⟩, 6⟩, ⟨⟨false, ["c"]⟩, 6⟩,
        ⟨⟨false, ["d"]⟩, 6⟩]
      (by decide) (by decide)
    have hs : sortDesc [⟨⟨false, ["a"]⟩, 6⟩, ⟨⟨false, ["b"]⟩, 6⟩, ⟨⟨false, ["c"]⟩, 6⟩,
        ⟨⟨false, ["d"]⟩, 6⟩] =
        [⟨⟨false, ["a"]⟩, 6⟩, ⟨⟨false, ["b"]⟩, 6⟩, ⟨⟨false, ["c"]⟩, 6⟩,
         ⟨⟨false, ["d"]⟩, 6⟩] :=
      List.mergeSort_of_sorted (by decide)
    rw [hok, hs]
    rfl

/-- Witness for C3: the stability clause at a concrete equal-size pair. -/
theorem pack_first_fit_and_scenarios_inst :
    ([⟨⟨false, ["a"]⟩, 5⟩, ⟨⟨false, ["b"]⟩, 5⟩] : List FileInfo).Sublist
      (sortDesc [⟨⟨false, ["a"]⟩, 5⟩, ⟨⟨false, ["b"]⟩, 5⟩, ⟨⟨false, ["c"]⟩, 9⟩]) :=
  pack_first_fit_and_scenarios.2.2.1
    [⟨⟨false, ["a"]⟩, 5⟩, ⟨⟨false, ["b"]⟩, 5⟩, ⟨⟨false, ["c"]⟩, 9⟩]
    ⟨⟨false, ["a"]⟩, 5⟩ ⟨⟨false, ["b"]⟩, 5⟩ rfl (by decide)

/-- C4.  `Bucket::add` succeeds exactly when the new total fits the
capacity; on success the file is appended to the members and the size
updated (path and capacity untouched); on failure the bucket is completely
unchanged. -/
theorem add_contract (b : Bucket) (f : FileInfo) :
    ((b.add f).2 = true ↔ b.size + f.size ≤ b.capacity) ∧
    ((b.add f).2 = true →
      (b.add f).1 = ⟨b.path, b.capacity, b.size + f.size, b.contents ++ [f]⟩) ∧
    ((b.add f).2 = false → (b.add f).1 = b) :=
  ⟨add_true_iff, add_fst_of_true, add_fst_of_false⟩

/-- Witness for C4: a successful admission at a concrete bucket and file. -/
theorem add_contract_inst :
    ((⟨⟨false, ["part", "001"]⟩, 10, 3, []⟩ : Bucket).add ⟨⟨false, ["a"]⟩, 7⟩).1 =
      ⟨⟨false, ["part", "001"]⟩, 10, 10, [⟨⟨false, ["a"]⟩, 7⟩]⟩ :=
  (add_contract ⟨⟨false, ["part", "001"]⟩, 10, 3, []⟩ ⟨⟨false, ["a"]⟩, 7⟩).2.1
    (by decide)

/-- C5, evaluation at the failing inputs.  A bare decimal number does not
parse: `split_at(s.len() - 1)` always hands the last character to the
suffix, so the number part of `"5"` is empty (`Invalid number`) and the
digit `5` of `"15"` is taken as an unknown suffix.  The empty-suffix
multiplier arm is reachable only through the trim slip, e.g. on `"5 "`. -/
theorem bare_number_rejected :
    fromStr "5" = .error "Invalid number" ∧
    fromStr "15" = .error "unknown suffix '5'" ∧
    fromStr "5 " = .ok 5 := by
  refine ⟨by decide, by decide, by decide⟩

/-- C7, evaluation at the failing inputs.  The split index `s.len() - 1` is
computed from the untrimmed string but applied to the trimmed one: with two
trimmed characters (`"5  "`) `split_at` is out of bounds — a Rust panic —
and with one trimmed character (`" 15M"`) the suffix is lost, so the result
differs from parsing the trimmed string `"15M"`. -/
theorem trim_split_mismatch :
    fromStr "5  " = .panic ∧
    fromStr " 15M" = .error "Invalid number" ∧
    fromStr "15M" = .ok 15000000 := by
  refine ⟨by decide, by decide, by decide⟩

/-- C6.  The parser multiplies by binary powers for lowercase suffixes and
decimal powers for uppercase ones (`15M` is fifteen million, `15m` is
`15 × 1024²`), rejects the empty string, and truncates — rather than
rounds — fractional byte values (`1.2346K` is `1234.6` bytes, reported as
`1234`): for a nonnegative numerator the computed byte count `v` is the
floor of the exact value `n·m / 10^k`, i.e. `v·10^k ≤ n·m < (v+1)·10^k`,
as long as the exact value does not saturate the `u64` range. -/
theorem parser_multiplier_values :
    fromStr "15M" = .ok 15000000 ∧
    fromStr "15m" = .ok 15728640 ∧
    fromStr "" = .error "Empty string" ∧
    fromStr "1.2346K" = .ok 1234 ∧
    (suffixMult ['k'] = some (1024 ^ 1) ∧ suffixMult ['m'] = some (1024 ^ 2) ∧
     suffixMult ['g'] = some (1024 ^ 3) ∧ suffixMult ['K'] = some (1000 ^ 1) ∧
     suffixMult ['M'] = some (1000 ^ 2) ∧ suffixMult ['G'] = some (1000 ^ 3)) ∧
    (∀ n k m : Nat, n * m / 10 ^ k ≤ 2 ^ 64 - 1 →
      truncProduct (n : Int) k m = n * m / 10 ^ k ∧
      (n * m / 10 ^ k) * 10 ^ k ≤ n * m ∧
      n * m < (n * m / 10 ^ k + 1) * 10 ^ k) := by
  refine ⟨by decide, by decide, by decide, by decide,
    ⟨by decide, by decide, by decide, by decide, by decide, by decide⟩, ?_⟩
  intro n k m hsat
  have hpow : 0 < 10 ^ k := Nat.pos_pow_of_pos k (by omega)
  refine ⟨?_, Nat.div_mul_le_self _ _, ?_⟩
  · unfold truncProduct
    rw [if_neg (by omega)]
    simp only [Int.toNat_natCast]
    exact min_eq_left hsat
  · have h1 : 10 ^ k * (n * m / 10 ^ k) + n * m % 10 ^ k = n * m :=
      Nat.div_add_mod _ _
    have h2 : n * m % 10 ^ k < 10 ^ k := Nat.mod_lt _ hpow
    calc n * m = 10 ^ k * (n * m / 10 ^ k) + n * m % 10 ^ k := h1.symm
      _ < 10 ^ k * (n * m / 10 ^ k) + 10 ^ k := by omega
      _ = (n * m / 10 ^ k + 1) * 10 ^ k := by ring

/-- Witness for C6: the truncation clause at a concrete fractional value,
`12346 × 1000 / 10^4 = 1234` with `1234·10^4 ≤ 12346000 < 1235·10^4`. -/
theorem parser_multiplier_values_inst :
    truncProduct (12346 : Int) 4 1000 = 12346 * 1000 / 10 ^ 4 ∧
    (12346 * 1000 / 10 ^ 4) * 10 ^ 4 ≤ 12346 * 1000 ∧
    12346 * 1000 < (12346 * 1000 / 10 ^ 4 + 1) * 10 ^ 4 :=
  parser_multiplier_values.2.2.2.2.2 12346 4 1000 (by norm_num)

/-- C8, counterexample.  For an absolute source path, `target.push`
replaces the bucket directory wholesale, so the computed target is the
file's own path — not the join of destination root, numbered subdirectory
and source-relative path that the claim describes. -/
theorem link_target_absolute_cex :
    (⟨⟨false, ["part", "001"]⟩, 15, 1, [⟨⟨true, ["data", "f.txt"]⟩, 1⟩]⟩ : Bucket).target
        ⟨⟨true, ["data", "f.txt"]⟩, 1⟩ = ⟨true, ["data", "f.txt"]⟩ ∧
    (⟨⟨false, ["part", "001"]⟩, 15, 1, [⟨⟨true, ["data", "f.txt"]⟩, 1⟩]⟩ : Bucket).target
        ⟨⟨true, ["data", "f.txt"]⟩, 1⟩ ≠
      specTarget ⟨false, ["part"]⟩ 1 ⟨true, ["data"]⟩ ⟨⟨true, ["data", "f.txt"]⟩, 1⟩ :=
  ⟨rfl, by decide⟩

/-- C8 (amended).  The target is the `PathBuf`-push of the file's full
discovered path onto the bucket's numbered directory: for a relative file
path the components are appended (the discovered path, source root
included, is preserved beneath `destination_root/NNN`), while an absolute
file path replaces the bucket directory entirely; bucket directories are
the destination root plus a zero-padded 3-digit ordinal. -/
theorem link_target_push_semantics :
    (∀ (b : Bucket) (f : FileInfo), f.path.absolute = false →
      b.target f = ⟨b.path.absolute, b.path.components ++ f.path.components⟩) ∧
    (∀ (b : Bucket) (f : FileInfo), f.path.absolute = true →
      b.target f = f.path) ∧
    (∀ (dest : RPath) (n : Nat),
      bucketPath dest n = ⟨dest.absolute, dest.components ++ [pad3 n]⟩) ∧
    pad3 1 = "001" ∧ pad3 42 = "042" ∧ pad3 123 = "123" := by
  refine ⟨?_, ?_, fun dest n => rfl, rfl, rfl, rfl⟩
  · intro b f h
    unfold Bucket.target RPath.push
    rw [h]
    simp
  · intro b f h
    unfold Bucket.target RPath.push
    rw [h]
    simp

/-- Witness for C8: push semantics at a concrete relative and a concrete
absolute file path. -/
theorem link_target_push_semantics_inst :
    (⟨⟨false, ["part", "001"]⟩, 15, 0, []⟩ : Bucket).target ⟨⟨false, ["d", "x"]⟩, 3⟩ =
      ⟨false, ["part", "001", "d", "x"]⟩ ∧
    (⟨⟨false, ["part", "001"]⟩, 15, 0, []⟩ : Bucket).target ⟨⟨true, ["abs"]⟩, 3⟩ =
      ⟨true, ["abs"]⟩ :=
  ⟨link_target_push_semantics.1 ⟨⟨false, ["part", "001"]⟩, 15, 0, []⟩
      ⟨⟨false, ["d", "x"]⟩, 3⟩ rfl,
   link_target_push_semantics.2.1 ⟨⟨false, ["part", "001"]⟩, 15, 0, []⟩
      ⟨⟨true, ["abs"]⟩, 3⟩ rfl⟩

/-- C9, counterexample.  A failing hard link aborts the rest of its own
bucket: with a two-member bucket whose first link fails (and whose second
would succeed), nothing at all is linked — the claim's "processing
continues with the remaining member files of the same bucket" does not
hold. -/
theorem link_skips_rest_of_bucket_cex :
    mainLink [⟨⟨false, ["part", "001"]⟩, 10, 10,
        [⟨⟨false, ["a"]⟩, 7⟩, ⟨⟨false, ["b"]⟩, 3⟩]⟩]
      (fun f => f.size == 7) = [] ∧
    (fun f : FileInfo => f.size == 7) ⟨⟨false, ["b"]⟩, 3⟩ = false :=
  ⟨rfl, rfl⟩

/-- Characterization of `Bucket::link` against a failure oracle: the files
linked are the longest prefix of members whose links succeed, and the
method returns `Err` exactly when some member fails. -/
theorem linkRun_eq (fails : FileInfo → Bool) :
    ∀ contents : List FileInfo,
      linkRun contents fails =
        (contents.takeWhile (fun f => !fails f), contents.any fails) := by
  intro contents
  induction contents with
  | nil => rfl
  | cons f fs ih =>
      by_cases hf : fails f = true
      · simp [linkRun, hf]
      · simp only [Bool.not_eq_true] at hf
        simp [linkRun, hf, ih]

/-- C9 (amended).  A link failure is not fatal to the run: every bucket is
still processed (the whole run links, bucket by bucket in order, exactly
the longest prefix of each bucket's members whose links succeed — later
buckets are unaffected by earlier failures), but the remaining member
files of a failing bucket are skipped, and `link` reports `Err` exactly
when some member of its bucket fails. -/
theorem link_partial_failure :
    (∀ (buckets : List Bucket) (fails : FileInfo → Bool),
      mainLink buckets fails =
        (buckets.map (fun b => b.contents.takeWhile (fun f => !fails f))).flatten) ∧
    (∀ (contents : List FileInfo) (fails : FileInfo → Bool),
      (linkRun contents fails).2 = contents.any fails) := by
  constructor
  · intro buckets fails
    induction buckets with
    | nil => rfl
    | cons b bs ih => simp [mainLink, linkRun_eq, ih]
  · intro contents fails
    rw [linkRun_eq]

/-- C10.  The dry-run percentage `self.size * 100 / self.capacity` is
computed in unguarded `u64` arithmetic: it is the exact floor percentage
whenever the capacity is positive and `size ≤ (2^64 − 1) / 100`; capacity
`0` is a division-by-zero panic; the product `size * 100` wraps for any
size above that bound; and a capacity-`0` bucket is reachable, because
packing an empty file at capacity `0` succeeds (the pre-packing check only
rejects files strictly larger than the capacity). -/
theorem percent_arithmetic :
    (∀ size cap : Nat, 0 < cap → size ≤ (2 ^ 64 - 1) / 100 →
      percent size cap = some (size * 100 / cap)) ∧
    (∀ size : Nat, percent size 0 = none) ∧
    (∀ size : Nat, (2 ^ 64 - 1) / 100 < size → size * 100 % 2 ^ 64 ≠ size * 100) ∧
    pack 0 ⟨false, ["part"]⟩ [⟨⟨false, ["empty"]⟩, 0⟩] =
      .ok [⟨⟨false, ["part", "001"]⟩, 0, 0, [⟨⟨false, ["empty"]⟩, 0⟩]⟩] ∧
    percent 0 0 = none := by
  have h64 : (2 : Nat) ^ 64 = 18446744073709551616 := by norm_num
  refine ⟨?_, fun size => rfl, ?_, ?_, rfl⟩
  · intro size cap hcap hsize
    unfold percent
    rw [if_neg (by omega)]
    congr 1
    have hlt : size * 100 < 2 ^ 64 := by
      rw [h64] at *
      omega
    rw [Nat.mod_eq_of_lt hlt]
  · intro size hsize
    have hge : 2 ^ 64 ≤ size * 100 := by
      rw [h64] at *
      omega
    have hm : size * 100 % 2 ^ 64 < 2 ^ 64 := Nat.mod_lt _ (by positivity)
    omega
  · have hok := @pack_ok 0 ⟨false, ["part"]⟩
      [⟨⟨false, ["empty"]⟩, 0⟩] (by decide) (by decide)
    have hs : sortDesc [⟨⟨false, ["empty"]⟩, 0⟩] = [⟨⟨false, ["empty"]⟩, 0⟩] :=
      List.mergeSort_singleton _
    rw [hok, hs]
    rfl

/-- Witness for C10: the exact percentage at a concrete bucket state. -/
theorem percent_arithmetic_inst :
    percent 5 10 = some (5 * 100 / 10) :=
  percent_arithmetic.1 5 10 (by norm_num) (by norm_num)

end Fit
